import Mathlib

/-
A shallow embedding of the aggregation core of the graphql-modular-loader
package (src/index.js).  The filesystem walk (microload), the GraphQL parser
(graphql-tag) and the spinner UI are external collaborators: the discovered
tree is a parameter of the embedded `loader`, and `gql` is modelled as an
opaque injective transform of the schema text.  JavaScript string semantics
(trim, startsWith, toLowerCase on ASCII, truthiness of strings) and object
semantics (key insertion order, property assignment, Object.assign) are
translated explicitly.  Because JavaScript mutates the name property of
resolver functions in place, the embedded `loader` returns the post-call
state of the input tree as a second component.
-/

namespace ModularLoader

/-- A JavaScript function value: a reference identity `fnId` plus the
configurable `name` property (mutable in JS through Object.defineProperty). -/
structure Fn where
  fnId : Nat
  name : String
deriving DecidableEq, Repr

/-- A parsed GraphQL document as produced by the external graphql-tag parser;
the core treats parsing as an opaque transform of the text. -/
structure GqlDoc where
  text : String
deriving DecidableEq, Repr

/-- The external parser `gql` applied to schema text. -/
def gql (s : String) : GqlDoc := ⟨s⟩

/-- The whitespace class used by the JS trim model. -/
def jsWhitespace (c : Char) : Bool := c == ' ' || c == '\t' || c == '\n' || c == '\r'

/-- JS String.prototype.trim: drop surrounding whitespace. -/
def jsTrim (s : String) : String :=
  ⟨((s.data.dropWhile jsWhitespace).reverse.dropWhile jsWhitespace).reverse⟩

/-- JS String.prototype.startsWith: a raw character-sequence test. -/
def jsStartsWith (s pre : String) : Bool := pre.data.isPrefixOf s.data

/-- ASCII lowering of one character (JS toLowerCase on the names used here). -/
def lowerChar (c : Char) : Char :=
  if 65 ≤ c.toNat ∧ c.toNat ≤ 90 then Char.ofNat (c.toNat + 32) else c

/-- JS String.prototype.toLowerCase restricted to ASCII input. -/
def jsToLower (s : String) : String := ⟨s.data.map lowerChar⟩

/-- Truthiness of an optional JS string: absent and the empty string are falsy. -/
def truthyStr : Option String → Bool
  | none => false
  | some s => !(s == "")

/-- Property lookup on a JS object modelled as an assoc list in key-insertion
order (keys are unique in a JS object, so the first match is the match). -/
def getKey {α : Type} : List (String × α) → String → Option α
  | [], _ => none
  | p :: rest, k => if p.1 == k then some p.2 else getKey rest k

/-- JS property assignment `m[k] = v`: overwrite the existing key in place
(keeping its position) or append a new key. -/
def setKey {α : Type} : List (String × α) → String → α → List (String × α)
  | [], k, v => [(k, v)]
  | p :: rest, k, v => if p.1 == k then (p.1, v) :: rest else p :: setKey rest k v

/-- `Object.assign(base, add)`: assign every key of `add` onto `base` in order. -/
def assignAll {α : Type} (base add : List (String × α)) : List (String × α) :=
  add.foldl (fun acc p => setKey acc p.1 p.2) base

/-- `m[k] = true` on the populated-root-types map: a repeated key keeps its
original position (JS object key order is first-insertion order). -/
def insertOnce (l : List String) (k : String) : List String :=
  if k ∈ l then l else l ++ [k]

/-- One operation definition (for example `Query/books/`): optional schema
text and optional resolver function. -/
structure OperationDef where
  schema : Option String := none
  resolver : Option Fn := none
deriving DecidableEq, Repr

/-- A root operation group: operation name to operation definition, in
discovery order. -/
abbrev OperationGroup := List (String × OperationDef)

/-- One top-level type entry as assembled by the external microload
collaborator: the recognized keys of the node. -/
structure TypeEntry where
  schema : Option String := none
  resolvers : Option (List (String × Fn)) := none
  loaders : Option (List (String × Fn)) := none
  middleware : Option (List (String × Fn)) := none
  query : Option OperationGroup := none
  mutation : Option OperationGroup := none
  subscription : Option OperationGroup := none
deriving DecidableEq, Repr

/-- The discovered tree: top-level type entries in discovery order. -/
abbrev Tree := List (String × TypeEntry)

/-- The `commonResolvers` constant of src/index.js line 8. -/
def commonResolvers : List String := ["Query", "Mutation", "Subscription"]

/-- `types[typeKey][item]` for the three recognized group names. -/
def TypeEntry.group (e : TypeEntry) (item : String) : Option OperationGroup :=
  if item == "Query" then e.query
  else if item == "Mutation" then e.mutation
  else if item == "Subscription" then e.subscription
  else none

/-- Write one group field back into the entry (the in-place JS update). -/
def TypeEntry.setGroup (e : TypeEntry) (item : String) (g : Option OperationGroup) :
    TypeEntry :=
  if item == "Query" then { e with query := g }
  else if item == "Mutation" then { e with mutation := g }
  else if item == "Subscription" then { e with subscription := g }
  else e

/-- The reduce accumulator of src/index.js lines 123-128. -/
structure Acc where
  typeDefs : List GqlDoc
  resolvers : List (String × List (String × Fn))
  loaders : List (String × Fn)
  middleware : List (String × Fn)
deriving DecidableEq, Repr

/-- The fresh initial accumulator built by each call (lines 123-128). -/
def emptyAcc : Acc := ⟨[], [], [], []⟩

/-- Lines 96-102: trim the operation schema fragment and prepend the text
`extend ` unless the trimmed fragment already starts with the raw character
sequence `extend`. -/
def extendSchema (s : String) : String :=
  let t := jsTrim s
  if jsStartsWith t "extend" then t else "extend " ++ t

/-- Lines 62-68: set the debug name property of every resolver function of a
type entry (an in-place mutation of the function objects in JS). -/
def renameResolvers (typeKey : String) (rs : List (String × Fn)) :
    List (String × Fn) :=
  rs.map (fun p => (p.1, { p.2 with name := "Resolver_" ++ typeKey ++ "_" ++ p.1 }))

/-- The running state threaded through the reduce: the keys of
`typesToAddMap` in insertion order, and the accumulator. -/
abbrev St := List String × Acc

/-- Lines 90-117: handle one operation definition `target[key]`.  Returns the
updated state and the (possibly name-mutated) definition. -/
def stepOp (typeKey item key : String) (st : St) (od : OperationDef) :
    St × OperationDef :=
  if !truthyStr od.schema && od.resolver.isNone then (st, od)
  else
    let ta := insertOnce st.1 item
    let acc := st.2
    let acc :=
      if truthyStr od.schema then
        { acc with typeDefs := acc.typeDefs ++ [gql (extendSchema (od.schema.getD ""))] }
      else acc
    match od.resolver with
    | none => ((ta, acc), od)
    | some f =>
      let f' : Fn := { f with name := item ++ "_" ++ typeKey ++ "_" ++ key }
      let inner := (getKey acc.resolvers item).getD []
      ((ta, { acc with resolvers := setKey acc.resolvers item (setKey inner key f') }),
        { od with resolver := some f' })

/-- Lines 88-117: the forEach over the keys of one operation group in
discovery order, threading the state left to right and rebuilding the group
as JS left it. -/
def processGroup (typeKey item : String) (st : St) : OperationGroup → St × OperationGroup
  | [] => (st, [])
  | p :: rest =>
    let r := stepOp typeKey item p.1 st p.2
    let q := processGroup typeKey item r.1 rest
    (q.1, (p.1, r.2) :: q.2)

/-- Lines 49-81: the first half of the reduce body for one type entry: the
own schema push, the resolver copy (with debug renaming), and the loader and
middleware merges. -/
def entryPre (acc : Acc) (typeKey : String) (e : TypeEntry) : Acc × TypeEntry :=
  let acc :=
    if truthyStr e.schema then
      { acc with typeDefs := acc.typeDefs ++ [gql (e.schema.getD "")] }
    else acc
  let step1 : Acc × TypeEntry :=
    match e.resolvers with
    | none => (acc, e)
    | some rs =>
      let renamed := renameResolvers typeKey rs
      let inner := (getKey acc.resolvers typeKey).getD []
      ({ acc with resolvers := setKey acc.resolvers typeKey (assignAll inner renamed) },
        { e with resolvers := some renamed })
  let acc := step1.1
  let e := step1.2
  let acc :=
    match e.loaders with
    | none => acc
    | some ls => { acc with loaders := assignAll acc.loaders ls }
  let acc :=
    match e.middleware with
    | none => acc
    | some ms => { acc with middleware := assignAll acc.middleware ms }
  (acc, e)

/-- Lines 83-118: the second half of the reduce body: the three recognized
operation groups, in the order of `commonResolvers`. -/
def entryGroups (typeKey : String) (st : St) (e : TypeEntry) : St × TypeEntry :=
  commonResolvers.foldl
    (fun p item =>
      match p.2.group item with
      | none => p
      | some target =>
        let r := processGroup typeKey item p.1 target
        (r.1, p.2.setGroup item (some r.2)))
    (st, e)

/-- Lines 39-122: the whole reduce body for one type entry. -/
def processEntry (st : St) (typeKey : String) (e : TypeEntry) : St × TypeEntry :=
  let p := entryPre st.2 typeKey e
  entryGroups typeKey (st.1, p.1) p.2

/-- The reduce over `Object.keys(types)` (lines 39-128), threading the state
through the entries in discovery order and rebuilding the (mutated) tree. -/
def runTree (st : St) : Tree → St × Tree
  | [] => (st, [])
  | q :: rest =>
    let r := processEntry st q.1 q.2
    let w := runTree r.1 rest
    (w.1, (q.1, r.2) :: w.2)

/-- Lines 136-148: the synthesized root schema text, built from the keys of
`typesToAddMap` in their insertion order. -/
def baseTypeDefsText (typesToAdd : List String) : String :=
  let s := "\n"
  let s := typesToAdd.foldl (fun s t => s ++ "type " ++ t ++ "\n") s
  let s := s ++ "schema \x7b\n"
  let s := typesToAdd.foldl (fun s t => s ++ "  " ++ jsToLower t ++ ": " ++ t ++ "\n") s
  s ++ "\x7d\n"

/-- The error kinds the core raises itself. -/
inductive LoadError where
  | configError (msg : String)
deriving DecidableEq, Repr

/-- The aggregate result (lines 152-156); the context composer is the
separate `getNestedFns` bound to the two maps. -/
structure LoadResult where
  typeDefs : List GqlDoc
  resolvers : List (String × List (String × Fn))
  loaders : List (String × Fn)
  middleware : List (String × Fn)
deriving DecidableEq, Repr

/-- Lines 22-157: the `loader` entry point.  The discovered tree is the
output of the external microload collaborator, so it is a parameter here; the
path only undergoes the emptiness check of line 23.  The second component is
the post-call state of the input tree (JS renames the resolver functions in
place). -/
def loader (path : String) (types : Tree) : Except LoadError LoadResult × Tree :=
  if path == "" then
    (Except.error (LoadError.configError "A path to load must be specified."), types)
  else
    let folded := runTree ([], emptyAcc) types
    let typesToAdd := folded.1.1
    let acc := folded.1.2
    let tree := folded.2
    if typesToAdd.isEmpty then
      (Except.error (LoadError.configError
        "No Query, Mutation or Subscription found. You must provide at least a valid Query schema."),
        tree)
    else
      (Except.ok
        { typeDefs := acc.typeDefs ++ [gql (baseTypeDefsText typesToAdd)]
          resolvers := acc.resolvers
          loaders := acc.loaders
          middleware := acc.middleware },
        tree)

/-- Lines 10-20: the context-function composer; for each main key and each
registered factory, call the factory with the given context and collect the
results under the original keys. -/
def getNestedFns {Ctx α : Type} (nestedBlocks : List (String × List (String × (Ctx → α))))
    (context : Ctx) : List (String × List (String × α)) :=
  nestedBlocks.foldl
    (fun block p =>
      setKey block p.1 (p.2.foldl (fun m q => setKey m q.1 (q.2 context)) []))
    []

/-- Line 155: `getContextFns` is `getNestedFns` bound to the object holding
the aggregated loader and middleware maps. -/
def getContextFns {Ctx α : Type} (loaders middleware : List (String × (Ctx → α))) :
    Ctx → List (String × List (String × α)) :=
  getNestedFns [("loaders", loaders), ("middleware", middleware)]

/-- Decidable equality for the result of a call, used to evaluate the
embedded program on concrete inputs. -/
def decEqExcept {ε α : Type} [DecidableEq ε] [DecidableEq α] :
    (a b : Except ε α) → Decidable (a = b)
  | Except.error e, Except.error f =>
    if h : e = f then isTrue (by rw [h]) else isFalse (by intro hh; cases hh; exact h rfl)
  | Except.error _, Except.ok _ => isFalse (by intro hh; cases hh)
  | Except.ok _, Except.error _ => isFalse (by intro hh; cases hh)
  | Except.ok a, Except.ok b =>
    if h : a = b then isTrue (by rw [h]) else isFalse (by intro hh; cases hh; exact h rfl)

instance {ε α : Type} [DecidableEq ε] [DecidableEq α] : DecidableEq (Except ε α) :=
  decEqExcept

/-! Specification-side descriptions of the observable behaviour, stated
independently of the fold so that the theorems below relate the embedded
program to them. -/

/-- The minimum-requirements test of line 92: an operation definition counts
exactly when it carries a truthy schema or a resolver. -/
def nonskipOd (od : OperationDef) : Bool :=
  truthyStr od.schema || od.resolver.isSome

/-- A type entry populates a root operation group when the group is present
on the entry and holds at least one schema-or-resolver-bearing definition. -/
def entryPopulates (e : TypeEntry) (item : String) : Bool :=
  match e.group item with
  | none => false
  | some target => target.any (fun p => nonskipOd p.2)

/-- A root operation group is populated somewhere in the tree. -/
def isPopulated (t : Tree) (item : String) : Bool :=
  t.any (fun q => entryPopulates q.2 item)

/-- The names one entry adds to the populated-root-types map, in the scan
order Query, Mutation, Subscription. -/
def popEntry (l : List String) (e : TypeEntry) : List String :=
  commonResolvers.foldl
    (fun l item => if entryPopulates e item then insertOnce l item else l) l

/-- The populated root operation groups of the whole tree, in first-population
order. -/
def popList (t : Tree) : List String :=
  t.foldl (fun l q => popEntry l q.2) []

/-- The parsed operation-schema documents one group contributes, in discovery
order. -/
def opDocs (target : OperationGroup) : List GqlDoc :=
  (target.filter (fun p => truthyStr p.2.schema)).map
    (fun p => gql (extendSchema (p.2.schema.getD "")))

/-- The parsed documents one type entry contributes: its own schema first,
then its operation schemas in traversal order. -/
def entryDocs (e : TypeEntry) : List GqlDoc :=
  (if truthyStr e.schema then [gql (e.schema.getD "")] else [])
    ++ opDocs (e.query.getD []) ++ opDocs (e.mutation.getD [])
    ++ opDocs (e.subscription.getD [])

/-- The documents of the whole tree, entries in discovery order. -/
def treeDocs (t : Tree) : List GqlDoc :=
  t.foldr (fun q acc => entryDocs q.2 ++ acc) []

/-- The in-place debug renaming a call applies to one operation definition. -/
def mutateOd (typeKey item key : String) (od : OperationDef) : OperationDef :=
  let r := od.resolver.map (fun f => { f with name := item ++ "_" ++ typeKey ++ "_" ++ key })
  { od with resolver := r }

/-- The in-place debug renaming a call applies to one operation group. -/
def mutateGroup (typeKey item : String) (g : OperationGroup) : OperationGroup :=
  g.map (fun p => (p.1, mutateOd typeKey item p.1 p.2))

/-- The in-place debug renaming a call applies to one type entry. -/
def mutateEntry (typeKey : String) (e : TypeEntry) : TypeEntry :=
  { e with
    resolvers := e.resolvers.map (renameResolvers typeKey)
    query := e.query.map (mutateGroup typeKey "Query")
    mutation := e.mutation.map (mutateGroup typeKey "Mutation")
    subscription := e.subscription.map (mutateGroup typeKey "Subscription") }

/-- The in-place debug renaming a call applies to the whole tree. -/
def mutateTree (t : Tree) : Tree :=
  t.map (fun q => (q.1, mutateEntry q.1 q.2))

/-- Remove the inert operation definitions from a group. -/
def pruneGroup (g : OperationGroup) : OperationGroup :=
  g.filter (fun p => nonskipOd p.2)

/-- Remove the inert operation definitions from a type entry. -/
def pruneEntry (e : TypeEntry) : TypeEntry :=
  { e with
    query := e.query.map pruneGroup
    mutation := e.mutation.map pruneGroup
    subscription := e.subscription.map pruneGroup }

/-- Remove the inert operation definitions from the whole tree. -/
def pruneTree (t : Tree) : Tree :=
  t.map (fun q => (q.1, pruneEntry q.2))

/-- Erase the mutable debug-name property of a function value. -/
def Fn.strip (f : Fn) : Fn := { f with name := "" }

/-- Erase the resolver debug names in a resolver map. -/
def stripFnMap (m : List (String × Fn)) : List (String × Fn) :=
  m.map (fun p => (p.1, p.2.strip))

/-- Erase the resolver debug names in an operation group. -/
def stripGroup (g : OperationGroup) : OperationGroup :=
  g.map (fun p => (p.1, { p.2 with resolver := p.2.resolver.map Fn.strip }))

/-- Erase the resolver debug names in a type entry, leaving every other part
of the entry (schema texts, loaders, middleware, structure) untouched. -/
def stripEntry (e : TypeEntry) : TypeEntry :=
  { e with
    resolvers := e.resolvers.map stripFnMap
    query := e.query.map stripGroup
    mutation := e.mutation.map stripGroup
    subscription := e.subscription.map stripGroup }

/-- Erase the resolver debug names in the whole tree. -/
def stripTree (t : Tree) : Tree :=
  t.map (fun q => (q.1, stripEntry q.2))

/-- The value the LAST assignment of a key in a map produces, if any. -/
def lastVal {α : Type} : List (String × α) → String → Option α
  | [], _ => none
  | p :: rest, k => (lastVal rest k).or (if p.1 == k then some p.2 else none)

/-- Last-write-wins lookup across the tree for one of the flat factory maps:
a later entry takes priority over every earlier one. -/
def lastWinsBy (sel : TypeEntry → Option (List (String × Fn))) :
    Tree → String → Option Fn
  | [], _ => none
  | q :: rest, k => (lastWinsBy sel rest k).or (lastVal ((sel q.2).getD []) k)

/-- Lookup through the two-level resolver map. -/
def getKey2 {α : Type} (m : List (String × List (String × α))) (a b : String) :
    Option α :=
  (getKey m a).bind (fun inner => getKey inner b)

/-- All realized instances held by a two-level mapping. -/
def nestedValues {α : Type} (m : List (String × List (String × α))) : List α :=
  m.foldr (fun p acc => p.2.map (fun q => q.2) ++ acc) []

/-! Basic facts about the JS object model. -/

theorem truthyStr_none : truthyStr none = false := rfl

theorem mem_insertOnce {l : List String} {k x : String} :
    x ∈ insertOnce l k ↔ x ∈ l ∨ x = k := by
  unfold insertOnce
  by_cases h : k ∈ l
  · simp only [if_pos h]
    constructor
    · exact fun hx => Or.inl hx
    · rintro (hx | rfl)
      · exact hx
      · exact h
  · simp [if_neg h]

theorem insertOnce_of_mem {l : List String} {k : String} (h : k ∈ l) :
    insertOnce l k = l := by
  simp [insertOnce, h]

theorem self_mem_insertOnce (l : List String) (k : String) :
    k ∈ insertOnce l k := by
  simp [mem_insertOnce]

theorem insertOnce_ne_nil (l : List String) (k : String) :
    insertOnce l k ≠ [] := by
  intro h
  have : k ∈ insertOnce l k := self_mem_insertOnce l k
  rw [h] at this
  exact absurd this (List.not_mem_nil k)

theorem nodup_insertOnce {l : List String} (k : String) (h : l.Nodup) :
    (insertOnce l k).Nodup := by
  unfold insertOnce
  by_cases hk : k ∈ l
  · simpa [hk]
  · simp [hk, List.nodup_append, h]

theorem getKey_setKey_self {α : Type} (m : List (String × α)) (k : String) (v : α) :
    getKey (setKey m k v) k = some v := by
  induction m with
  | nil => simp [setKey, getKey]
  | cons p rest ih =>
    by_cases h : p.1 = k
    · simp [setKey, getKey, h]
    · simp [setKey, getKey, h, ih]

theorem getKey_setKey_ne {α : Type} (m : List (String × α)) {k k' : String}
    (v : α) (h : k' ≠ k) : getKey (setKey m k v) k' = getKey m k' := by
  have hkk : ¬(k = k') := fun hh => h hh.symm
  induction m with
  | nil => simp [setKey, getKey, hkk]
  | cons p rest ih =>
    by_cases hp : p.1 = k
    · simp [setKey, getKey, hp, hkk]
    · by_cases hp' : p.1 = k' <;> simp [setKey, getKey, hp, hp', h, ih]

theorem getKey_assignAll {α : Type} (add base : List (String × α)) (k : String) :
    getKey (assignAll base add) k = (lastVal add k).or (getKey base k) := by
  induction add generalizing base with
  | nil => simp [assignAll, lastVal]
  | cons p rest ih =>
    have step : assignAll base (p :: rest) = assignAll (setKey base p.1 p.2) rest := by
      simp [assignAll]
    rw [step, ih, lastVal, Option.or_assoc]
    by_cases h : p.1 = k
    · simp [h, getKey_setKey_self, Option.or]
    · simp [h, getKey_setKey_ne base p.2 (fun hh => h hh.symm), Option.or]

/-! Facts about the handling of one operation definition. -/

theorem skipCond (od : OperationDef) :
    (!truthyStr od.schema && od.resolver.isNone) = !nonskipOd od := by
  obtain ⟨s, r⟩ := od
  cases r <;> simp [nonskipOd]

theorem stepOp_skip (k i key : String) (st : St) {od : OperationDef}
    (h : nonskipOd od = false) : stepOp k i key st od = (st, od) := by
  unfold stepOp
  rw [skipCond, h]
  rfl

theorem stepOp_ta (k i key : String) (st : St) (od : OperationDef) :
    (stepOp k i key st od).1.1 =
      if nonskipOd od then insertOnce st.1 i else st.1 := by
  cases hn : nonskipOd od
  · rw [stepOp_skip k i key st hn]
    simp
  · unfold stepOp
    rw [skipCond, hn]
    cases od.resolver <;> simp

theorem stepOp_typeDefs (k i key : String) (st : St) (od : OperationDef) :
    (stepOp k i key st od).1.2.typeDefs =
      st.2.typeDefs ++
        (if truthyStr od.schema then [gql (extendSchema (od.schema.getD ""))] else []) := by
  cases hn : nonskipOd od
  · have ht : truthyStr od.schema = false := by
      simp [nonskipOd] at hn
      exact hn.1
    rw [stepOp_skip k i key st hn]
    simp [ht]
  · unfold stepOp
    rw [skipCond, hn]
    cases od.resolver <;> cases ht : truthyStr od.schema <;> simp [ht]

theorem stepOp_loaders (k i key : String) (st : St) (od : OperationDef) :
    (stepOp k i key st od).1.2.loaders = st.2.loaders := by
  unfold stepOp
  cases hc : (!truthyStr od.schema && od.resolver.isNone) <;>
    cases od.resolver <;> cases ht : truthyStr od.schema <;> simp [hc, ht]

theorem stepOp_middleware (k i key : String) (st : St) (od : OperationDef) :
    (stepOp k i key st od).1.2.middleware = st.2.middleware := by
  unfold stepOp
  cases hc : (!truthyStr od.schema && od.resolver.isNone) <;>
    cases od.resolver <;> cases ht : truthyStr od.schema <;> simp [hc, ht]

theorem stepOp_snd (k i key : String) (st : St) (od : OperationDef) :
    (stepOp k i key st od).2 = mutateOd k i key od := by
  obtain ⟨s, r⟩ := od
  unfold stepOp
  cases r <;> cases ht : truthyStr s <;> simp [mutateOd, ht]

theorem stepOp_mutate (k i key : String) (st : St) (od : OperationDef) :
    stepOp k i key st (mutateOd k i key od) =
      ((stepOp k i key st od).1, mutateOd k i key od) := by
  obtain ⟨s, r⟩ := od
  cases r with
  | none =>
    have hm : mutateOd k i key ⟨s, none⟩ = ⟨s, none⟩ := by simp [mutateOd]
    rw [hm]
    have h2 := stepOp_snd k i key st ⟨s, none⟩
    rw [hm] at h2
    exact Prod.ext rfl h2
  | some f =>
    obtain ⟨fid, fname⟩ := f
    unfold stepOp
    cases ht : truthyStr s <;> simp [mutateOd, ht]

/-! Facts about the handling of one operation group. -/

theorem opDocs_cons (p : String × OperationDef) (g : OperationGroup) :
    opDocs (p :: g) =
      (if truthyStr p.2.schema then [gql (extendSchema (p.2.schema.getD ""))] else [])
        ++ opDocs g := by
  by_cases h : truthyStr p.2.schema <;> simp [opDocs, h]

theorem processGroup_ta (k i : String) (g : OperationGroup) (st : St) :
    (processGroup k i st g).1.1 =
      if g.any (fun p => nonskipOd p.2) then insertOnce st.1 i else st.1 := by
  induction g generalizing st with
  | nil => simp [processGroup]
  | cons p rest ih =>
    cases hn : nonskipOd p.2
    · simp only [processGroup]
      rw [stepOp_skip k i p.1 st hn, ih]
      rw [List.any_cons, hn]
      rw [Bool.false_or]
    · simp only [processGroup]
      rw [ih]
      have h1 : (stepOp k i p.1 st p.2).1.1 = insertOnce st.1 i := by
        simp [stepOp_ta, hn]
      rw [h1]
      cases hr : rest.any (fun q => nonskipOd q.2) <;>
        simp [List.any_cons, hn, hr, insertOnce_of_mem (self_mem_insertOnce st.1 i)]

theorem processGroup_typeDefs (k i : String) (g : OperationGroup) (st : St) :
    (processGroup k i st g).1.2.typeDefs = st.2.typeDefs ++ opDocs g := by
  induction g generalizing st with
  | nil => simp [processGroup, opDocs]
  | cons p rest ih =>
    simp only [processGroup, ih, opDocs_cons, stepOp_typeDefs]
    simp

theorem processGroup_loaders (k i : String) (g : OperationGroup) (st : St) :
    (processGroup k i st g).1.2.loaders = st.2.loaders := by
  induction g generalizing st with
  | nil => simp [processGroup]
  | cons p rest ih => simp only [processGroup, ih, stepOp_loaders]

theorem processGroup_middleware (k i : String) (g : OperationGroup) (st : St) :
    (processGroup k i st g).1.2.middleware = st.2.middleware := by
  induction g generalizing st with
  | nil => simp [processGroup]
  | cons p rest ih => simp only [processGroup, ih, stepOp_middleware]

theorem processGroup_snd (k i : String) (g : OperationGroup) (st : St) :
    (processGroup k i st g).2 = mutateGroup k i g := by
  induction g generalizing st with
  | nil => simp [processGroup, mutateGroup]
  | cons p rest ih => simp [processGroup, mutateGroup, ih, stepOp_snd]

theorem processGroup_mutate (k i : String) (g : OperationGroup) (st : St) :
    processGroup k i st (mutateGroup k i g) =
      ((processGroup k i st g).1, mutateGroup k i g) := by
  induction g generalizing st with
  | nil => simp [processGroup, mutateGroup]
  | cons p rest ih =>
    simp only [mutateGroup, List.map_cons, processGroup]
    have hs := stepOp_mutate k i p.1 st p.2
    rw [hs]
    have ihr := ih (stepOp k i p.1 st p.2).1
    simp only [mutateGroup] at ihr
    rw [ihr]

theorem processGroup_prune (k i : String) (g : OperationGroup) (st : St) :
    (processGroup k i st (pruneGroup g)).1 = (processGroup k i st g).1 := by
  induction g generalizing st with
  | nil => simp [processGroup, pruneGroup]
  | cons p rest ih =>
    cases hn : nonskipOd p.2
    · have hp : pruneGroup (p :: rest) = pruneGroup rest := by
        simp [pruneGroup, List.filter_cons, hn]
      rw [hp]
      simp only [processGroup]
      rw [stepOp_skip k i p.1 st hn]
      exact ih st
    · have hp : pruneGroup (p :: rest) = p :: pruneGroup rest := by
        simp [pruneGroup, List.filter_cons, hn]
      rw [hp]
      simp only [processGroup]
      rw [ih]

/-! Facts about the handling of one type entry. -/

theorem entryPre_eq (acc : Acc) (k : String) (e : TypeEntry) :
    entryPre acc k e =
      ({ typeDefs := acc.typeDefs ++ (if truthyStr e.schema then [gql (e.schema.getD "")] else [])
         resolvers :=
           match e.resolvers with
           | none => acc.resolvers
           | some rs => setKey acc.resolvers k
               (assignAll ((getKey acc.resolvers k).getD []) (renameResolvers k rs))
         loaders := assignAll acc.loaders (e.loaders.getD [])
         middleware := assignAll acc.middleware (e.middleware.getD []) },
       { e with resolvers := e.resolvers.map (renameResolvers k) }) := by
  obtain ⟨s, r, l, m, q, mu, su⟩ := e
  cases r <;> cases l <;> cases m <;> cases ht : truthyStr s <;>
    simp [entryPre, assignAll, ht]

/-- The group fields the call writes back into one entry. -/
def mutateGroups (typeKey : String) (e : TypeEntry) : TypeEntry :=
  { e with
    query := e.query.map (mutateGroup typeKey "Query")
    mutation := e.mutation.map (mutateGroup typeKey "Mutation")
    subscription := e.subscription.map (mutateGroup typeKey "Subscription") }

theorem mutateEntry_eq (k : String) (e : TypeEntry) :
    mutateEntry k e =
      mutateGroups k { e with resolvers := e.resolvers.map (renameResolvers k) } := rfl

theorem entryGroups_ta (k : String) (st : St) (e : TypeEntry) :
    (entryGroups k st e).1.1 = popEntry st.1 e := by
  obtain ⟨s, r, l, m, q, mu, su⟩ := e
  cases q <;> cases mu <;> cases su <;>
    simp [entryGroups, commonResolvers, popEntry, entryPopulates, TypeEntry.group,
      TypeEntry.setGroup, processGroup_ta]

theorem entryGroups_typeDefs (k : String) (st : St) (e : TypeEntry) :
    (entryGroups k st e).1.2.typeDefs =
      st.2.typeDefs ++ opDocs (e.query.getD []) ++ opDocs (e.mutation.getD [])
        ++ opDocs (e.subscription.getD []) := by
  obtain ⟨s, r, l, m, q, mu, su⟩ := e
  cases q <;> cases mu <;> cases su <;>
    simp [entryGroups, commonResolvers, TypeEntry.group, TypeEntry.setGroup,
      processGroup_typeDefs, opDocs]

theorem entryGroups_loaders (k : String) (st : St) (e : TypeEntry) :
    (entryGroups k st e).1.2.loaders = st.2.loaders := by
  obtain ⟨s, r, l, m, q, mu, su⟩ := e
  cases q <;> cases mu <;> cases su <;>
    simp [entryGroups, commonResolvers, TypeEntry.group, TypeEntry.setGroup,
      processGroup_loaders]

theorem entryGroups_middleware (k : String) (st : St) (e : TypeEntry) :
    (entryGroups k st e).1.2.middleware = st.2.middleware := by
  obtain ⟨s, r, l, m, q, mu, su⟩ := e
  cases q <;> cases mu <;> cases su <;>
    simp [entryGroups, commonResolvers, TypeEntry.group, TypeEntry.setGroup,
      processGroup_middleware]

theorem entryGroups_snd (k : String) (st : St) (e : TypeEntry) :
    (entryGroups k st e).2 = mutateGroups k e := by
  obtain ⟨s, r, l, m, q, mu, su⟩ := e
  cases q <;> cases mu <;> cases su <;>
    simp [entryGroups, commonResolvers, TypeEntry.group, TypeEntry.setGroup,
      processGroup_snd, mutateGroups]

theorem mutateOd_idem (k i key : String) (od : OperationDef) :
    mutateOd k i key (mutateOd k i key od) = mutateOd k i key od := by
  obtain ⟨s, r⟩ := od
  cases r <;> simp [mutateOd]

theorem mutateGroup_idem (k i : String) (g : OperationGroup) :
    mutateGroup k i (mutateGroup k i g) = mutateGroup k i g := by
  induction g with
  | nil => rfl
  | cons p rest ih => simp [mutateGroup, mutateOd_idem]

theorem entryGroups_mutate (k : String) (st : St) (e : TypeEntry) :
    entryGroups k st (mutateGroups k e) = ((entryGroups k st e).1, mutateGroups k e) := by
  obtain ⟨s, r, l, m, q, mu, su⟩ := e
  cases q <;> cases mu <;> cases su <;>
    simp [entryGroups, commonResolvers, TypeEntry.group, TypeEntry.setGroup, mutateGroups,
      processGroup_mutate, processGroup_snd, mutateGroup_idem]

theorem entryGroups_prune (k : String) (st : St) (e : TypeEntry) :
    (entryGroups k st (pruneEntry e)).1 = (entryGroups k st e).1 := by
  obtain ⟨s, r, l, m, q, mu, su⟩ := e
  cases q <;> cases mu <;> cases su <;>
    simp [entryGroups, commonResolvers, TypeEntry.group, TypeEntry.setGroup, pruneEntry,
      processGroup_prune, processGroup_snd]

theorem renameResolvers_idem (k : String) (rs : List (String × Fn)) :
    renameResolvers k (renameResolvers k rs) = renameResolvers k rs := by
  induction rs with
  | nil => rfl
  | cons p rest ih => simp [renameResolvers]

theorem processEntry_ta (st : St) (k : String) (e : TypeEntry) :
    (processEntry st k e).1.1 = popEntry st.1 e := by
  obtain ⟨s, r, l, m, q, mu, su⟩ := e
  unfold processEntry
  rw [entryPre_eq, entryGroups_ta]
  cases q <;> cases mu <;> cases su <;>
    simp [popEntry, entryPopulates, TypeEntry.group, commonResolvers]

theorem processEntry_typeDefs (st : St) (k : String) (e : TypeEntry) :
    (processEntry st k e).1.2.typeDefs = st.2.typeDefs ++ entryDocs e := by
  obtain ⟨s, r, l, m, q, mu, su⟩ := e
  unfold processEntry
  rw [entryPre_eq, entryGroups_typeDefs]
  simp [entryDocs]

theorem processEntry_loaders (st : St) (k : String) (e : TypeEntry) :
    (processEntry st k e).1.2.loaders = assignAll st.2.loaders (e.loaders.getD []) := by
  obtain ⟨s, r, l, m, q, mu, su⟩ := e
  unfold processEntry
  rw [entryPre_eq, entryGroups_loaders]

theorem processEntry_middleware (st : St) (k : String) (e : TypeEntry) :
    (processEntry st k e).1.2.middleware = assignAll st.2.middleware (e.middleware.getD []) := by
  obtain ⟨s, r, l, m, q, mu, su⟩ := e
  unfold processEntry
  rw [entryPre_eq, entryGroups_middleware]

theorem processEntry_snd (st : St) (k : String) (e : TypeEntry) :
    (processEntry st k e).2 = mutateEntry k e := by
  unfold processEntry
  rw [entryPre_eq, entryGroups_snd, mutateEntry_eq]

theorem processEntry_mutate (st : St) (k : String) (e : TypeEntry) :
    processEntry st k (mutateEntry k e) = ((processEntry st k e).1, mutateEntry k e) := by
  obtain ⟨s, r, l, m, q, mu, su⟩ := e
  cases r <;> cases q <;> cases mu <;> cases su <;>
    simp [processEntry, mutateEntry, entryPre_eq, entryGroups, commonResolvers,
      TypeEntry.group, TypeEntry.setGroup, renameResolvers_idem, processGroup_mutate,
      processGroup_snd, mutateGroup_idem]

theorem processEntry_prune (st : St) (k : String) (e : TypeEntry) :
    (processEntry st k (pruneEntry e)).1 = (processEntry st k e).1 := by
  obtain ⟨s, r, l, m, q, mu, su⟩ := e
  cases r <;> cases q <;> cases mu <;> cases su <;>
    simp [processEntry, pruneEntry, entryPre_eq, entryGroups, commonResolvers,
      TypeEntry.group, TypeEntry.setGroup, processGroup_prune, processGroup_snd]

/-! Facts about the reduce over the whole tree. -/

theorem runTree_ta (t : Tree) (st : St) :
    (runTree st t).1.1 = t.foldl (fun l q => popEntry l q.2) st.1 := by
  induction t generalizing st with
  | nil => simp [runTree]
  | cons q rest ih =>
    simp only [runTree, List.foldl_cons]
    rw [ih, processEntry_ta]

theorem runTree_typeDefs (t : Tree) (st : St) :
    (runTree st t).1.2.typeDefs = st.2.typeDefs ++ treeDocs t := by
  induction t generalizing st with
  | nil => simp [runTree, treeDocs]
  | cons q rest ih =>
    simp only [runTree]
    rw [ih, processEntry_typeDefs]
    simp [treeDocs]

theorem runTree_loaders (t : Tree) (st : St) (key : String) :
    getKey (runTree st t).1.2.loaders key =
      (lastWinsBy (fun e => e.loaders) t key).or (getKey st.2.loaders key) := by
  induction t generalizing st with
  | nil => simp [runTree, lastWinsBy]
  | cons q rest ih =>
    simp only [runTree, lastWinsBy]
    rw [ih, processEntry_loaders, getKey_assignAll, Option.or_assoc]

theorem runTree_middleware (t : Tree) (st : St) (key : String) :
    getKey (runTree st t).1.2.middleware key =
      (lastWinsBy (fun e => e.middleware) t key).or (getKey st.2.middleware key) := by
  induction t generalizing st with
  | nil => simp [runTree, lastWinsBy]
  | cons q rest ih =>
    simp only [runTree, lastWinsBy]
    rw [ih, processEntry_middleware, getKey_assignAll, Option.or_assoc]

theorem runTree_snd (t : Tree) (st : St) : (runTree st t).2 = mutateTree t := by
  induction t generalizing st with
  | nil => simp [runTree, mutateTree]
  | cons q rest ih => simp [runTree, mutateTree, processEntry_snd, ih]

theorem runTree_mutate (t : Tree) (st : St) :
    runTree st (mutateTree t) = ((runTree st t).1, mutateTree t) := by
  induction t generalizing st with
  | nil => simp [runTree, mutateTree]
  | cons q rest ih =>
    have hstep := processEntry_mutate st q.1 q.2
    simp only [mutateTree, List.map_cons, runTree, hstep]
    have ihr := ih (processEntry st q.1 q.2).1
    simp only [mutateTree] at ihr
    rw [ihr]

theorem runTree_prune (t : Tree) (st : St) :
    (runTree st (pruneTree t)).1 = (runTree st t).1 := by
  induction t generalizing st with
  | nil => simp [runTree, pruneTree]
  | cons q rest ih =>
    simp only [pruneTree, List.map_cons, runTree]
    rw [processEntry_prune]
    have ihr := ih (processEntry st q.1 q.2).1
    simp only [pruneTree] at ihr
    rw [ihr]

/-! Facts about the populated-root-types list. -/

theorem mem_foldl_insertOnce (items : List String) (P : String → Bool)
    (l : List String) (x : String) :
    x ∈ items.foldl (fun acc i => if P i then insertOnce acc i else acc) l ↔
      x ∈ l ∨ (x ∈ items ∧ P x = true) := by
  induction items generalizing l with
  | nil => simp
  | cons i rest ih =>
    simp only [List.foldl_cons]
    rw [ih]
    by_cases hp : P i = true
    · simp only [hp, if_true, mem_insertOnce]
      constructor
      · rintro ((hx | rfl) | hx)
        · exact Or.inl hx
        · exact Or.inr ⟨List.mem_cons_self _ _, hp⟩
        · exact Or.inr ⟨List.mem_cons_of_mem i hx.1, hx.2⟩
      · rintro (hx | ⟨hmem, hPx⟩)
        · exact Or.inl (Or.inl hx)
        · rcases List.mem_cons.mp hmem with rfl | hmem2
          · exact Or.inl (Or.inr rfl)
          · exact Or.inr ⟨hmem2, hPx⟩
    · have hp' : P i = false := by revert hp; cases P i <;> simp
      simp only [hp', Bool.false_eq_true, if_false]
      constructor
      · rintro (hx | hx)
        · exact Or.inl hx
        · exact Or.inr ⟨List.mem_cons_of_mem i hx.1, hx.2⟩
      · rintro (hx | ⟨hmem, hPx⟩)
        · exact Or.inl hx
        · rcases List.mem_cons.mp hmem with rfl | hmem2
          · rw [hPx] at hp'; cases hp'
          · exact Or.inr ⟨hmem2, hPx⟩

theorem nodup_foldl_insertOnce (items : List String) (P : String → Bool)
    (l : List String) (h : l.Nodup) :
    (items.foldl (fun acc i => if P i then insertOnce acc i else acc) l).Nodup := by
  induction items generalizing l with
  | nil => exact h
  | cons i rest ih =>
    simp only [List.foldl_cons]
    by_cases hp : P i = true
    · simp only [hp, if_true]
      exact ih _ (nodup_insertOnce i h)
    · have hp' : P i = false := by revert hp; cases P i <;> simp
      simp only [hp', Bool.false_eq_true, if_false]
      exact ih _ h

theorem mem_popEntry {l : List String} {e : TypeEntry} {x : String} :
    x ∈ popEntry l e ↔ x ∈ l ∨ (x ∈ commonResolvers ∧ entryPopulates e x = true) := by
  unfold popEntry
  exact mem_foldl_insertOnce commonResolvers (entryPopulates e) l x

theorem nodup_popEntry {l : List String} (e : TypeEntry) (h : l.Nodup) :
    (popEntry l e).Nodup :=
  nodup_foldl_insertOnce commonResolvers (entryPopulates e) l h

theorem entryPopulates_mem {e : TypeEntry} {x : String}
    (h : entryPopulates e x = true) : x ∈ commonResolvers := by
  by_contra hnc
  have hg : e.group x = none := by
    obtain ⟨s, r, ld, m, q, mu, su⟩ := e
    simp only [commonResolvers, List.mem_cons, List.not_mem_nil, or_false] at hnc
    push_neg at hnc
    obtain ⟨h1, h2, h3⟩ := hnc
    simp [TypeEntry.group, h1, h2, h3]
  unfold entryPopulates at h
  rw [hg] at h
  cases h

theorem mem_popList_fold {t : Tree} {l : List String} {x : String} :
    x ∈ t.foldl (fun l q => popEntry l q.2) l ↔ x ∈ l ∨ isPopulated t x = true := by
  induction t generalizing l with
  | nil => simp [isPopulated]
  | cons q rest ih =>
    simp only [List.foldl_cons]
    rw [ih, mem_popEntry]
    constructor
    · rintro ((hx | ⟨hc, hp⟩) | hx)
      · exact Or.inl hx
      · refine Or.inr ?_
        simp [isPopulated, List.any_cons, hp]
      · refine Or.inr ?_
        simp only [isPopulated, List.any_cons, Bool.or_eq_true]
        right
        simpa [isPopulated] using hx
    · rintro (hx | hx)
      · exact Or.inl (Or.inl hx)
      · simp only [isPopulated, List.any_cons, Bool.or_eq_true] at hx
        rcases hx with hx | hx
        · exact Or.inl (Or.inr ⟨entryPopulates_mem hx, hx⟩)
        · exact Or.inr (by simpa [isPopulated] using hx)

theorem mem_popList {t : Tree} {x : String} :
    x ∈ popList t ↔ isPopulated t x = true := by
  unfold popList
  rw [mem_popList_fold]
  simp

theorem nodup_popList_fold (t : Tree) (l : List String) (h : l.Nodup) :
    (t.foldl (fun l q => popEntry l q.2) l).Nodup := by
  induction t generalizing l with
  | nil => simpa
  | cons q rest ih =>
    simp only [List.foldl_cons]
    exact ih _ (nodup_popEntry q.2 h)

theorem nodup_popList (t : Tree) : (popList t).Nodup :=
  nodup_popList_fold t [] List.nodup_nil

/-! Facts about the loader entry point. -/

theorem loader_ok_eq (path : String) (t : Tree) (hp : path ≠ "")
    (hne : popList t ≠ []) :
    (loader path t).1 = Except.ok
      { typeDefs := treeDocs t ++ [gql (baseTypeDefsText (popList t))]
        resolvers := (runTree ([], emptyAcc) t).1.2.resolvers
        loaders := (runTree ([], emptyAcc) t).1.2.loaders
        middleware := (runTree ([], emptyAcc) t).1.2.middleware } := by
  have hp' : (path == "") = false := by simp [hp]
  have hta : (runTree (([], emptyAcc) : St) t).1.1 = popList t := runTree_ta t ([], emptyAcc)
  have hie : (runTree (([], emptyAcc) : St) t).1.1.isEmpty = false := by
    rw [hta]
    cases hpl : popList t with
    | nil => exact absurd hpl hne
    | cons a l => rfl
  simp only [loader, hp', Bool.false_eq_true, if_false, hie]
  rw [runTree_typeDefs, hta]
  rfl

theorem loader_error_iff (path : String) (t : Tree) :
    (∃ msg, (loader path t).1 = Except.error (LoadError.configError msg)) ↔
      (path = "" ∨ popList t = []) := by
  by_cases hp : path = ""
  · subst hp
    exact ⟨fun _ => Or.inl rfl, fun _ => ⟨"A path to load must be specified.", rfl⟩⟩
  · have hp' : (path == "") = false := by simp [hp]
    have hta : (runTree (([], emptyAcc) : St) t).1.1 = popList t := runTree_ta t ([], emptyAcc)
    by_cases hne : popList t = []
    · have hie : (runTree (([], emptyAcc) : St) t).1.1.isEmpty = true := by
        rw [hta, hne]
        rfl
      simp only [loader, hp', Bool.false_eq_true, if_false, hie, if_true]
      exact ⟨fun _ => Or.inr hne, fun _ => ⟨_, by rfl⟩⟩
    · have hie : (runTree (([], emptyAcc) : St) t).1.1.isEmpty = false := by
        rw [hta]
        cases hpl : popList t with
        | nil => exact absurd hpl hne
        | cons a l => rfl
      simp only [loader, hp', Bool.false_eq_true, if_false, hie]
      constructor
      · rintro ⟨msg, hmsg⟩
        cases hmsg
      · rintro (h | h)
        · exact absurd h hp
        · exact absurd h hne

theorem loader_snd (path : String) (t : Tree) :
    (loader path t).2 = if path == "" then t else mutateTree t := by
  by_cases hp : path = ""
  · subst hp
    simp [loader]
  · have hp' : (path == "") = false := by simp [hp]
    simp only [loader, hp', Bool.false_eq_true, if_false]
    split <;> rw [runTree_snd]

/-! The debug renaming changes nothing except the name fields of resolver
functions. -/

theorem stripFnMap_rename (k : String) (rs : List (String × Fn)) :
    stripFnMap (renameResolvers k rs) = stripFnMap rs := by
  induction rs with
  | nil => rfl
  | cons p rest ih => simp [stripFnMap, renameResolvers, Fn.strip]

theorem stripGroup_mutateGroup (k i : String) (g : OperationGroup) :
    stripGroup (mutateGroup k i g) = stripGroup g := by
  induction g with
  | nil => rfl
  | cons p rest ih =>
    simp only [stripGroup, mutateGroup, List.map_cons] at ih ⊢
    congr 1
    cases hr : p.2.resolver <;> simp [mutateOd, Fn.strip, hr]

theorem stripEntry_mutateEntry (k : String) (e : TypeEntry) :
    stripEntry (mutateEntry k e) = stripEntry e := by
  obtain ⟨s, r, l, m, q, mu, su⟩ := e
  cases r <;> cases q <;> cases mu <;> cases su <;>
    simp [stripEntry, mutateEntry, stripFnMap_rename, stripGroup_mutateGroup]

theorem stripTree_mutateTree (t : Tree) : stripTree (mutateTree t) = stripTree t := by
  induction t with
  | nil => rfl
  | cons q rest ih =>
    simp only [stripTree, mutateTree, List.map_cons] at ih ⊢
    rw [stripEntry_mutateEntry]
    simp only [List.map_map] at ih ⊢
    rw [ih]

/-! Bridging facts about the raw string prefix test. -/

theorem isPrefixOf_iff_append (l₁ l₂ : List Char) :
    l₁.isPrefixOf l₂ = true ↔ ∃ rest, l₂ = l₁ ++ rest := by
  induction l₁ generalizing l₂ with
  | nil => simp [List.isPrefixOf]
  | cons a as ih =>
    cases l₂ with
    | nil => simp [List.isPrefixOf]
    | cons b bs =>
      simp only [List.isPrefixOf, Bool.and_eq_true, beq_iff_eq, List.cons_append]
      rw [ih]
      constructor
      · rintro ⟨rfl, rest, rfl⟩
        exact ⟨rest, rfl⟩
      · rintro ⟨rest, heq⟩
        injection heq with hab hbs
        exact ⟨hab.symm, rest, hbs⟩

theorem jsStartsWith_iff (s pre : String) :
    jsStartsWith s pre = true ↔ ∃ rest : String, s = pre ++ rest := by
  unfold jsStartsWith
  rw [isPrefixOf_iff_append]
  constructor
  · rintro ⟨rest, h⟩
    refine ⟨⟨rest⟩, String.ext ?_⟩
    rw [String.data_append]
    exact h
  · rintro ⟨rest, rfl⟩
    exact ⟨rest.data, by rw [String.data_append]⟩

theorem append_extend_ne (t : String) : "extend " ++ t ≠ t := by
  intro h
  have hlen : ("extend " ++ t).data.length = t.data.length := by rw [h]
  rw [String.data_append] at hlen
  simp at hlen
  omega

/-- The list the single-entry case of the populated-root-types scan yields:
the canonical subset in canonical order. -/
theorem popEntry_nil (e : TypeEntry) :
    popEntry [] e = commonResolvers.filter (fun i => entryPopulates e i) := by
  by_cases h1 : entryPopulates e "Query" = true <;>
    by_cases h2 : entryPopulates e "Mutation" = true <;>
      by_cases h3 : entryPopulates e "Subscription" = true <;>
        simp [popEntry, commonResolvers, List.filter_cons, h1, h2, h3, insertOnce]

/-! Concrete inputs used to settle the claims. -/

/-- Entry A populates only Mutation, the later entry B populates Query. -/
def c1Tree : Tree :=
  [("A", { mutation := some [("m", { resolver := some ⟨0, "m"⟩ })] }),
   ("B", { query := some [("q", { resolver := some ⟨1, "q"⟩ })] })]

/-- The root document text the code synthesizes for `c1Tree`. -/
def mutationFirstRoot : String :=
  "\ntype Mutation\ntype Query\nschema \x7b\n  mutation: Mutation\n  query: Query\n\x7d\n"

/-- The root document text canonical order would give for `c1Tree`. -/
def canonicalRoot : String :=
  "\ntype Query\ntype Mutation\nschema \x7b\n  query: Query\n  mutation: Mutation\n\x7d\n"

def bookResolver : Fn := ⟨7, "booksResolver"⟩

/-- The concrete Book scenario of the spec. -/
def bookTree : Tree :=
  [("Book",
    { schema := some "type Book \x7b title: String \x7d",
      query := some [("books",
        { schema := some "extend type Query \x7b books: [Book] \x7d",
          resolver := some bookResolver })] })]

/-- The result value of the load of `bookTree`. -/
def c2res : LoadResult := ((loader "p" bookTree).1.toOption).getD ⟨[], [], [], []⟩

/-- A tree whose one operation definition carries the given schema text. -/
def opTree (s : String) : Tree :=
  [("T", { query := some [("op", { schema := some s })] })]

/-! C1. -/

/-- C1 counterexample: in a tree whose first entry populates only Mutation
and whose later entry populates Query, the synthesized root document lists
Mutation before Query (first-population order), not the canonical order
Query-then-Mutation the claim requires, although both groups are populated. -/
theorem c1_counterexample :
    Except.map (fun r => r.typeDefs.getLast?) (loader "p" c1Tree).1 =
        Except.ok (some (gql mutationFirstRoot)) ∧
      isPopulated c1Tree "Query" = true ∧
      isPopulated c1Tree "Mutation" = true ∧
      mutationFirstRoot ≠ canonicalRoot := by
  exact ⟨rfl, rfl, rfl, by decide⟩

/-- C1 (amended): for every accepted tree the synthesized root document is
the last element of typeDefs and is built from the populated root groups in
first-population order (the insertion order of the populated-types map);
that list holds exactly the populated groups, each once, and restricted to a
single type entry it is the canonical subset Query, Mutation, Subscription. -/
theorem c1_root_schema_order (path : String) (t : Tree) (hp : path ≠ "")
    (hne : popList t ≠ []) :
    (∃ r, (loader path t).1 = Except.ok r ∧
        r.typeDefs.getLast? = some (gql (baseTypeDefsText (popList t)))) ∧
      (∀ x, x ∈ popList t ↔ isPopulated t x = true) ∧
      (popList t).Nodup ∧
      (∀ k e, popList [(k, e)] = commonResolvers.filter (fun i => entryPopulates e i)) := by
  refine ⟨⟨_, loader_ok_eq path t hp hne, ?_⟩, fun x => mem_popList, nodup_popList t, ?_⟩
  · simp
  · intro k e
    have : popList [(k, e)] = popEntry [] e := rfl
    rw [this, popEntry_nil]

/-- C1 amended claim, checked at the concrete two-entry tree. -/
theorem c1_root_schema_order_witness :
    ("p" ≠ "") ∧ popList c1Tree ≠ [] ∧
      ((∃ r, (loader "p" c1Tree).1 = Except.ok r ∧
          r.typeDefs.getLast? = some (gql (baseTypeDefsText (popList c1Tree)))) ∧
        (∀ x, x ∈ popList c1Tree ↔ isPopulated c1Tree x = true) ∧
        (popList c1Tree).Nodup ∧
        (∀ k e, popList [(k, e)] = commonResolvers.filter (fun i => entryPopulates e i))) :=
  ⟨by decide, by decide, c1_root_schema_order "p" c1Tree (by decide) (by decide)⟩

/-! C2. -/

/-- C2: for every accepted tree, typeDefs is the discovery-order sequence of
the entry documents (each entry schema first, then its operation schemas in
traversal order) with the synthesized root document last; on the concrete
Book tree, typeDefs has length 3 and resolvers.Query.books is the given
resolver function (same function identity). -/
theorem c2_typeDefs_order :
    (∀ path t r, (loader path t).1 = Except.ok r →
        r.typeDefs = treeDocs t ++ [gql (baseTypeDefsText (popList t))]) ∧
      Except.map
          (fun r => (r.typeDefs.length, (getKey2 r.resolvers "Query" "books").map Fn.fnId))
          (loader "p" bookTree).1 =
        Except.ok (3, some bookResolver.fnId) := by
  constructor
  · intro path t r h
    by_cases hp : path = ""
    · subst hp
      cases h
    · by_cases hne : popList t = []
      · obtain ⟨msg, hmsg⟩ := (loader_error_iff path t).mpr (Or.inr hne)
        rw [hmsg] at h
        cases h
      · rw [loader_ok_eq path t hp hne] at h
        cases h
        rfl
  · rfl

/-- C2, checked at the concrete Book tree. -/
theorem c2_typeDefs_order_witness :
    (loader "p" bookTree).1 = Except.ok c2res ∧
      c2res.typeDefs = treeDocs bookTree ++ [gql (baseTypeDefsText (popList bookTree))] :=
  ⟨rfl, c2_typeDefs_order.1 "p" bookTree c2res rfl⟩

/-! C3. -/

/-- C3: every operation schema fragment is trimmed first; a fragment whose
trimmed text does not start with `extend` is parsed with `extend ` prepended
to the trimmed text, and a fragment already starting with `extend` is parsed
as the trimmed text unchanged, with no second prefix; the parsed document in
typeDefs is exactly the parse of that adjusted text. -/
theorem c3_operation_auto_extend (s : String) (hs : s ≠ "") :
    Except.map (fun r => r.typeDefs) (loader "p" (opTree s)).1 =
        Except.ok [gql (extendSchema s), gql (baseTypeDefsText ["Query"])] ∧
      (jsStartsWith (jsTrim s) "extend" = false →
        extendSchema s = "extend " ++ jsTrim s) ∧
      (jsStartsWith (jsTrim s) "extend" = true → extendSchema s = jsTrim s) := by
  have hts : truthyStr (some s) = true := by simp [truthyStr, hs]
  refine ⟨?_, ?_, ?_⟩
  · have hpl : popList (opTree s) = ["Query"] := by
      simp [popList, popEntry, commonResolvers, entryPopulates, TypeEntry.group, opTree,
        nonskipOd, hts, insertOnce]
    have hne : popList (opTree s) ≠ [] := by
      rw [hpl]
      exact fun h => List.noConfusion h
    rw [loader_ok_eq "p" (opTree s) (by decide) hne, hpl]
    have hdocs : treeDocs (opTree s) = [gql (extendSchema s)] := by
      simp [treeDocs, entryDocs, opDocs, opTree, hts, truthyStr_none]
    rw [Except.map]
    simp [hdocs]
  · intro h
    simp [extendSchema, h]
  · intro h
    simp [extendSchema, h]

/-- C3, checked at a concrete fragment without the extend keyword. -/
theorem c3_operation_auto_extend_witness :
    ("type Query \x7b a: Int \x7d" ≠ "") ∧
      (Except.map (fun r => r.typeDefs) (loader "p" (opTree "type Query \x7b a: Int \x7d")).1 =
          Except.ok [gql (extendSchema "type Query \x7b a: Int \x7d"),
            gql (baseTypeDefsText ["Query"])] ∧
        (jsStartsWith (jsTrim "type Query \x7b a: Int \x7d") "extend" = false →
          extendSchema "type Query \x7b a: Int \x7d" =
            "extend " ++ jsTrim "type Query \x7b a: Int \x7d") ∧
        (jsStartsWith (jsTrim "type Query \x7b a: Int \x7d") "extend" = true →
          extendSchema "type Query \x7b a: Int \x7d" =
            jsTrim "type Query \x7b a: Int \x7d")) :=
  ⟨by decide, c3_operation_auto_extend "type Query \x7b a: Int \x7d" (by decide)⟩

/-! C4. -/

/-- C4: the loader keeps no state between invocations (the populated-types
map and the accumulator are created afresh inside each call, and the module
scope of src/index.js holds no mutable binding), so a second call returns
the same result as if the first call had never happened, even when the
second call receives the very tree object the first call mutated. -/
theorem c4_no_shared_state (p₁ p₂ : String) (t : Tree) :
    (loader p₂ ((loader p₁ t).2)).1 = (loader p₂ t).1 := by
  rw [loader_snd p₁ t]
  by_cases h1 : p₁ = ""
  · simp [h1]
  · have h1' : (p₁ == "") = false := by simp [h1]
    rw [h1']
    simp only [Bool.false_eq_true, if_false]
    by_cases h2 : p₂ = ""
    · subst h2
      rfl
    · have h2' : (p₂ == "") = false := by simp [h2]
      simp only [loader, h2', Bool.false_eq_true, if_false]
      rw [runTree_mutate]
      dsimp only
      by_cases hie : (runTree ([], emptyAcc) t).1.1.isEmpty = true <;> simp [hie]

/-! C5. -/

/-- A tree holding a field resolver and an operation resolver. -/
def c5Tree : Tree :=
  [("Book",
    { resolvers := some [("author", ⟨3, "orig"⟩)],
      query := some [("books", { resolver := some ⟨4, "r0"⟩ })] })]

/-- The state the call leaves `c5Tree` in: both resolver functions carry new
debug names. -/
def c5TreeAfter : Tree :=
  [("Book",
    { resolvers := some [("author", ⟨3, "Resolver_Book_author"⟩)],
      query := some [("books", { resolver := some ⟨4, "Query_Book_books"⟩ })] })]

/-- C5 counterexample: load does mutate values reachable from its input
tree: it sets the name property of every resolver function in place, so the
post-call tree differs from the input tree. -/
theorem c5_counterexample :
    (loader "p" c5Tree).2 = c5TreeAfter ∧ c5TreeAfter ≠ c5Tree :=
  ⟨rfl, by decide⟩

/-- C5 (amended): apart from setting the debug name property of resolver
functions in place, the pass leaves the input tree unmodified: erasing the
name fields of resolver functions makes the post-call tree equal to the
input tree (structure, schema texts, loader and middleware factories, and
every function identity included). -/
theorem c5_frame (path : String) (t : Tree) :
    stripTree ((loader path t).2) = stripTree t := by
  rw [loader_snd]
  by_cases hp : path = ""
  · simp [hp]
  · have hp' : (path == "") = false := by simp [hp]
    rw [hp']
    simp only [Bool.false_eq_true, if_false]
    exact stripTree_mutateTree t

/-! C6. -/

/-- Two entries registering a loader under the same key; entry A also
populates Query so the load succeeds. -/
def c6Tree : Tree :=
  [("A", { loaders := some [("db", ⟨10, "f"⟩)],
           query := some [("q", { resolver := some ⟨0, "r"⟩ })] }),
   ("B", { loaders := some [("db", ⟨11, "g"⟩)] })]

/-- The result value of the load of `c6Tree`. -/
def c6res : LoadResult := ((loader "p" c6Tree).1.toOption).getD ⟨[], [], [], []⟩

/-- C6: the loader and middleware registrations are merged into single flat
maps with last-write-wins semantics: the aggregated lookup of any key equals
the value of the last entry (in discovery order) that registers it, silently
and without error; on the concrete two-entry collision the later factory
wins. -/
theorem c6_last_write_wins :
    (∀ path t r k, (loader path t).1 = Except.ok r →
        getKey r.loaders k = lastWinsBy (fun e => e.loaders) t k ∧
          getKey r.middleware k = lastWinsBy (fun e => e.middleware) t k) ∧
      Except.map (fun r => (getKey r.loaders "db").map Fn.fnId) (loader "p" c6Tree).1 =
        Except.ok (some 11) := by
  constructor
  · intro path t r k h
    by_cases hp : path = ""
    · subst hp
      cases h
    · by_cases hne : popList t = []
      · obtain ⟨msg, hmsg⟩ := (loader_error_iff path t).mpr (Or.inr hne)
        rw [hmsg] at h
        cases h
      · rw [loader_ok_eq path t hp hne] at h
        cases h
        refine ⟨?_, ?_⟩ <;>
          simp [runTree_loaders, runTree_middleware, emptyAcc, getKey, Option.or_none]
  · rfl

/-- C6, checked at the concrete colliding tree. -/
theorem c6_last_write_wins_witness :
    (loader "p" c6Tree).1 = Except.ok c6res ∧
      getKey c6res.loaders "db" = lastWinsBy (fun e => e.loaders) c6Tree "db" :=
  ⟨rfl, (c6_last_write_wins.1 "p" c6Tree c6res "db" rfl).1⟩

/-! C7. -/

/-- C7: the load raises a ConfigurationError, returning no partial result,
exactly when the path is empty, the tree is empty, or no root operation
group was ever populated by a schema-or-resolver-bearing operation
definition. -/
theorem c7_config_error (path : String) (t : Tree) :
    (∃ msg, (loader path t).1 = Except.error (LoadError.configError msg)) ↔
      (path = "" ∨ t = [] ∨ ∀ x, isPopulated t x = false) := by
  rw [loader_error_iff]
  constructor
  · rintro (h | h)
    · exact Or.inl h
    · refine Or.inr (Or.inr ?_)
      intro x
      by_contra hx
      have hx' : isPopulated t x = true := by
        revert hx
        cases isPopulated t x <;> simp
      have hmem : x ∈ popList t := mem_popList.mpr hx'
      rw [h] at hmem
      exact absurd hmem (List.not_mem_nil x)
  · rintro (h | h | h)
    · exact Or.inl h
    · subst h
      exact Or.inr rfl
    · refine Or.inr ?_
      cases hpl : popList t with
      | nil => rfl
      | cons a l =>
        have ha : a ∈ popList t := by
          rw [hpl]
          exact List.mem_cons_self _ _
        have hpop := mem_popList.mp ha
        rw [h a] at hpop
        cases hpop

/-! C8. -/

/-- A tree with one populated Query operation and an inert, empty operation
definition under Mutation. -/
def c8Tree : Tree :=
  [("Book",
    { query := some [("books", { resolver := some ⟨1, "r"⟩ })],
      mutation := some [("noop", {})] })]

/-- C8: operation definitions lacking both schema and resolver are complete
no-ops: removing every inert definition from the tree leaves the load result
unchanged, and on the concrete tree the empty Mutation.noop definition does
not mark Mutation populated and contributes nothing to the output. -/
theorem c8_inert_noop (path : String) (t : Tree) :
    (loader path (pruneTree t)).1 = (loader path t).1 ∧
      isPopulated c8Tree "Mutation" = false ∧
      popList c8Tree = ["Query"] ∧
      Except.map (fun r => r.typeDefs) (loader "p" c8Tree).1 =
        Except.ok [gql (baseTypeDefsText ["Query"])] := by
  refine ⟨?_, rfl, rfl, rfl⟩
  by_cases hp : path = ""
  · subst hp
    rfl
  · have hp' : (path == "") = false := by simp [hp]
    simp only [loader, hp', Bool.false_eq_true, if_false]
    rw [runTree_prune]
    split <;> rfl

/-! C10. -/

/-- C10: the auto-extend decision is a raw character test on the first six
characters: whenever the trimmed fragment decomposes as the text `extend`
followed by anything (also a longer word such as `extended`), nothing is
prepended and the trimmed text is used as-is; whenever it does not, the text
`extend ` is always prepended. -/
theorem c10_raw_test (s : String) :
    (extendSchema s = jsTrim s ↔ ∃ rest : String, jsTrim s = "extend" ++ rest) ∧
      ((¬∃ rest : String, jsTrim s = "extend" ++ rest) ↔
        extendSchema s = "extend " ++ jsTrim s) ∧
      extendSchema " extended type Book x " = "extended type Book x" ∧
      jsStartsWith "extended" "extend" = true := by
  have hiff := jsStartsWith_iff (jsTrim s) "extend"
  refine ⟨⟨?_, ?_⟩, ⟨?_, ?_⟩, by decide, by decide⟩
  · intro h
    by_cases hb : jsStartsWith (jsTrim s) "extend" = true
    · exact hiff.mp hb
    · exfalso
      have hb' : jsStartsWith (jsTrim s) "extend" = false := by
        revert hb
        cases jsStartsWith (jsTrim s) "extend" <;> simp
      unfold extendSchema at h
      simp only [hb', Bool.false_eq_true, if_false] at h
      exact append_extend_ne (jsTrim s) h
  · intro hex
    have hb := hiff.mpr hex
    unfold extendSchema
    simp only [hb, if_true]
  · intro hnex
    have hb' : jsStartsWith (jsTrim s) "extend" = false := by
      cases hcase : jsStartsWith (jsTrim s) "extend"
      · rfl
      · exact absurd (hiff.mp hcase) hnex
    unfold extendSchema
    simp only [hb', Bool.false_eq_true, if_false]
  · intro heq hex
    have hb := hiff.mpr hex
    unfold extendSchema at heq
    simp only [hb, if_true] at heq
    exact append_extend_ne (jsTrim s) heq.symm

/-! C9. -/

theorem setKey_append_new {α : Type} (m : List (String × α)) (k : String) (v : α)
    (h : k ∉ m.map Prod.fst) : setKey m k v = m ++ [(k, v)] := by
  induction m with
  | nil => rfl
  | cons p rest ih =>
    simp only [List.map_cons, List.mem_cons] at h
    push_neg at h
    obtain ⟨h1, h2⟩ := h
    have hc : (p.1 == k) = false := by
      simp only [beq_eq_false_iff_ne, ne_eq]
      exact fun hh => h1 hh.symm
    simp only [setKey, hc, Bool.false_eq_true, if_false, ih h2, List.cons_append]

theorem foldl_setKey_map {β α : Type} (l : List (String × β)) (F : String × β → α)
    (acc : List (String × α)) (hnd : (l.map Prod.fst).Nodup)
    (hdisj : ∀ p, p ∈ l → p.1 ∉ acc.map Prod.fst) :
    l.foldl (fun m q => setKey m q.1 (F q)) acc = acc ++ l.map (fun q => (q.1, F q)) := by
  induction l generalizing acc with
  | nil => simp
  | cons q rest ih =>
    simp only [List.foldl_cons, List.map_cons]
    rw [setKey_append_new acc q.1 (F q) (hdisj q (List.mem_cons_self _ _))]
    simp only [List.map_cons, List.nodup_cons] at hnd
    rw [ih (acc ++ [(q.1, F q)]) hnd.2 ?_]
    · simp
    · intro p hp hmem
      rw [List.map_append] at hmem
      rcases List.mem_append.mp hmem with hin | hin
      · exact hdisj p (List.mem_cons_of_mem q hp) hin
      · have hpq : p.1 = q.1 := by simpa using hin
        exact hnd.1 (hpq ▸ List.mem_map_of_mem Prod.fst hp)

theorem getNestedFns_eq {Ctx α : Type} (blocks : List (String × List (String × (Ctx → α))))
    (c : Ctx) (h1 : (blocks.map Prod.fst).Nodup)
    (h2 : ∀ p, p ∈ blocks → (p.2.map Prod.fst).Nodup) :
    getNestedFns blocks c =
      blocks.map (fun p => (p.1, p.2.map (fun q => (q.1, q.2 c)))) := by
  unfold getNestedFns
  rw [foldl_setKey_map blocks (fun p => p.2.foldl (fun m q => setKey m q.1 (q.2 c)) []) []
      h1 (by intro p hp; simp)]
  simp only [List.nil_append]
  refine List.map_congr_left ?_
  intro p hp
  have hin := foldl_setKey_map p.2 (fun q => q.2 c) [] (h2 p hp) (by intro q hq; simp)
  simp only [List.nil_append] at hin
  rw [hin]

theorem mem_nestedValues {α : Type} {m : List (String × List (String × α))} {x : α} :
    x ∈ nestedValues m ↔ ∃ p, p ∈ m ∧ ∃ q, q ∈ p.2 ∧ x = q.2 := by
  induction m with
  | nil => simp [nestedValues]
  | cons p rest ih =>
    simp only [nestedValues, List.foldr_cons, List.mem_append, List.mem_map]
    simp only [nestedValues] at ih
    constructor
    · rintro (⟨q, hq, rfl⟩ | hx)
      · exact ⟨p, List.mem_cons_self _ _, q, hq, rfl⟩
      · obtain ⟨p', hp', q, hq, hxq⟩ := ih.mp hx
        exact ⟨p', List.mem_cons_of_mem p hp', q, hq, hxq⟩
    · rintro ⟨p', hp', q, hq, hxq⟩
      rcases List.mem_cons.mp hp' with rfl | hmem
      · exact Or.inl ⟨q, hq, hxq.symm⟩
      · exact Or.inr (ih.mpr ⟨p', hmem, q, hq, hxq⟩)

/-- C9: the composer never memoizes: every invocation applies every
registered factory to the exact context value of that invocation (the
realized mapping is the pointwise application of the factories); and when
every registered factory tags its fresh instance with the creating context
(the shallow rendering of per-call allocation), two invocations with
distinct contexts share no realized instance. -/
theorem c9_no_memoization {Ctx α : Type}
    (blocks : List (String × List (String × (Ctx → α))))
    (c₁ c₂ : Ctx) (tag : α → Ctx)
    (h1 : (blocks.map Prod.fst).Nodup)
    (h2 : ∀ p, p ∈ blocks → (p.2.map Prod.fst).Nodup)
    (htag : ∀ p, p ∈ blocks → ∀ q, q ∈ p.2 → ∀ c, tag (q.2 c) = c)
    (hne : c₁ ≠ c₂) :
    getNestedFns blocks c₁ = blocks.map (fun p => (p.1, p.2.map (fun q => (q.1, q.2 c₁)))) ∧
      getNestedFns blocks c₂ = blocks.map (fun p => (p.1, p.2.map (fun q => (q.1, q.2 c₂)))) ∧
      ∀ x, x ∈ nestedValues (getNestedFns blocks c₁) →
        x ∉ nestedValues (getNestedFns blocks c₂) := by
  refine ⟨getNestedFns_eq blocks c₁ h1 h2, getNestedFns_eq blocks c₂ h1 h2, ?_⟩
  intro x hx₁ hx₂
  rw [getNestedFns_eq blocks c₁ h1 h2] at hx₁
  rw [getNestedFns_eq blocks c₂ h1 h2] at hx₂
  obtain ⟨p₁, hp₁, q₁, hq₁, hx₁⟩ := mem_nestedValues.mp hx₁
  obtain ⟨p₂, hp₂, q₂, hq₂, hx₂⟩ := mem_nestedValues.mp hx₂
  obtain ⟨p₁', hp₁', rfl⟩ := List.mem_map.mp hp₁
  obtain ⟨p₂', hp₂', rfl⟩ := List.mem_map.mp hp₂
  simp only [List.mem_map] at hq₁ hq₂
  obtain ⟨q₁', hq₁', rfl⟩ := hq₁
  obtain ⟨q₂', hq₂', rfl⟩ := hq₂
  have ht₁ : tag x = c₁ := by
    rw [hx₁]
    exact htag p₁' hp₁' q₁' hq₁' c₁
  have ht₂ : tag x = c₂ := by
    rw [hx₂]
    exact htag p₂' hp₂' q₂' hq₂' c₂
  exact hne (ht₁ ▸ ht₂)

/-- The concrete factory blocks of the witness: each factory returns a fresh
pair tagging the creating context. -/
def w9blocks : List (String × List (String × (Nat → Nat × Nat))) :=
  [("loaders", [("a", fun c => (c, 0))]), ("middleware", [("b", fun c => (c, 1))])]

/-- C9, checked at two concrete contexts on concrete factory blocks. -/
theorem c9_no_memoization_witness :
    ((0, 0) ∈ nestedValues (getNestedFns w9blocks 0)) ∧
      (0, 0) ∉ nestedValues (getNestedFns w9blocks 1) := by
  refine ⟨by decide, (c9_no_memoization w9blocks 0 1 Prod.fst ?_ ?_ ?_ (by decide)).2.2
    (0, 0) (by decide)⟩
  · decide
  · intro p hp
    simp only [w9blocks, List.mem_cons, List.not_mem_nil, or_false] at hp
    rcases hp with rfl | rfl <;> decide
  · intro p hp q hq c
    simp only [w9blocks, List.mem_cons, List.not_mem_nil, or_false] at hp
    rcases hp with rfl | rfl <;>
      (simp only [List.mem_cons, List.not_mem_nil, or_false] at hq
       rcases hq with rfl
       rfl)

end ModularLoader
